import Mathlib

/-!
# Verification of the Chapter_04 linear-systems analysis module

This file gives a shallow embedding of the analysis functions in
`Chapter_04.py` (state controllability / observability via eigenvector pole
vectors, minimal-realisation checking, pole/zero direction extraction via
SVD, and symbolic transmission-zero computation via the Rosenbrock pencil),
and proves the specification claims about them.

Modelling choices:
* Machine floats are modelled as exact rationals; complex floats as `Cq`,
  a computable complex number with rational parts.  The exact-equality
  tests of the source (`norm == 0.0`, `sum == 0.0`) become exact tests
  over these rationals.
* Dense 2-D numpy arrays are row-major `List (List Cq)` values.
* External providers (scipy `eig`, the `utils.SVD` helper, the transfer
  function `G`) are parameters of the embedded functions, exactly as they
  are call-outs in the source.  Operations that raise in numpy on shape
  mismatch (matrix product, matrix power, `hstack`, `vstack`, a non-square
  determinant) return `Except String`.
-/

namespace Ch04

/-- A computable complex number with rational real and imaginary parts
(the exact model of a complex floating-point scalar). -/
@[ext] structure Cq where
  re : ℚ
  im : ℚ
deriving DecidableEq, Repr

namespace Cq

instance : Zero Cq := ⟨⟨0, 0⟩⟩

instance : One Cq := ⟨⟨1, 0⟩⟩

instance : Add Cq := ⟨fun x y => ⟨x.re + y.re, x.im + y.im⟩⟩

instance : Neg Cq := ⟨fun x => ⟨-x.re, -x.im⟩⟩

instance : Mul Cq := ⟨fun x y => ⟨x.re * y.re - x.im * y.im, x.re * y.im + x.im * y.re⟩⟩

@[simp] theorem zero_re : (0 : Cq).re = 0 := rfl

@[simp] theorem zero_im : (0 : Cq).im = 0 := rfl

@[simp] theorem one_re : (1 : Cq).re = 1 := rfl

@[simp] theorem one_im : (1 : Cq).im = 0 := rfl

@[simp] theorem add_re (x y : Cq) : (x + y).re = x.re + y.re := rfl

@[simp] theorem add_im (x y : Cq) : (x + y).im = x.im + y.im := rfl

@[simp] theorem neg_re (x : Cq) : (-x).re = -x.re := rfl

@[simp] theorem neg_im (x : Cq) : (-x).im = -x.im := rfl

@[simp] theorem mul_re (x y : Cq) : (x * y).re = x.re * y.re - x.im * y.im := rfl

@[simp] theorem mul_im (x y : Cq) : (x * y).im = x.re * y.im + x.im * y.re := rfl

instance : CommRing Cq where
  nsmul := nsmulRec
  zsmul := zsmulRec
  add_assoc a b c := by ext <;> simp <;> ring
  zero_add a := by ext <;> simp
  add_zero a := by ext <;> simp
  add_comm a b := by ext <;> simp <;> ring
  mul_assoc a b c := by ext <;> simp <;> ring
  one_mul a := by ext <;> simp
  mul_one a := by ext <;> simp
  left_distrib a b c := by ext <;> simp <;> ring
  right_distrib a b c := by ext <;> simp <;> ring
  zero_mul a := by ext <;> simp
  mul_zero a := by ext <;> simp
  mul_comm a b := by ext <;> simp <;> ring
  neg_add_cancel a := by ext <;> simp

/-- The rational `q` as a complex scalar. -/
def ofQ (q : ℚ) : Cq := ⟨q, 0⟩

/-- Complex conjugation. -/
def conj (x : Cq) : Cq := ⟨x.re, -x.im⟩

/-- Squared magnitude `|x|²`.  Over exact arithmetic the Euclidean norm of a
vector is `0` exactly when the sum of the squared magnitudes of its entries
is `0`, so the exact-zero norm test of the source is embedded through this
square (avoiding the irrational square root). -/
def normSq (x : Cq) : ℚ := x.re * x.re + x.im * x.im

/-- The imaginary unit. -/
def unitIm : Cq := ⟨0, 1⟩

theorem normSq_nonneg (x : Cq) : 0 ≤ normSq x := by
  have h1 : 0 ≤ x.re * x.re := mul_self_nonneg _
  have h2 : 0 ≤ x.im * x.im := mul_self_nonneg _
  simpa [normSq] using add_nonneg h1 h2

end Cq

/-- A dense 2-D array (row-major list of rows) with entries in `α`. -/
abbrev MatG (α : Type) := List (List α)

/-- Complex matrices, the working representation of numpy arrays here. -/
abbrev Mat := MatG Cq

/-- Rational matrices (exact model of the real-valued arrays fed to `zero`). -/
abbrev MatQ := MatG ℚ

/-- `M.shape[0]`: the number of rows. -/
def nrows {α : Type} (M : MatG α) : ℕ := M.length

/-- `M.shape[1]`: the number of columns (length of the first row). -/
def ncols {α : Type} (M : MatG α) : ℕ := (M.headD []).length

/-- One row of a matrix product: entry `j` is `∑ k, r k * Y k j`. -/
def rowMulT {α : Type} [CommRing α] (r : List α) (Y : MatG α) : List α :=
  (List.range (ncols Y)).map fun j =>
    ∑ k ∈ Finset.range (nrows Y), r.getD k 0 * (Y.getD k []).getD j 0

/-- Matrix product, unchecked (used only after the shape check passed). -/
def matMulT {α : Type} [CommRing α] (X Y : MatG α) : MatG α :=
  X.map fun r => rowMulT r Y

/-- The numpy matrix product `X * Y`: raises when the inner dimensions
disagree, as `np.matrix.__mul__` does. -/
def matMul {α : Type} [CommRing α] (X Y : MatG α) : Except String (MatG α) :=
  if ncols X = nrows Y then .ok (matMulT X Y) else .error "matmul: shapes not aligned"

/-- Matrix-vector product `X.dot(v)` with the same shape requirement. -/
def matVec {α : Type} [CommRing α] (X : MatG α) (v : List α) : Except String (List α) :=
  if ncols X = v.length then .ok (X.map fun r => (List.zipWith (· * ·) r v).sum)
  else .error "matmul: shapes not aligned"

/-- `np.eye n`. -/
def eyeM {α : Type} [CommRing α] [DecidableEq α] (n : ℕ) : MatG α :=
  (List.range n).map fun i => (List.range n).map fun j => if i = j then 1 else 0

/-- `np.zeros (r, c)`. -/
def zerosM {α : Type} [CommRing α] (r c : ℕ) : MatG α :=
  List.replicate r (List.replicate c 0)

/-- Iterated matrix power (the value `np.matrix.__pow__` computes on a
square input; `A ** 0` is the identity of `A`'s row count). -/
def matPowT {α : Type} [CommRing α] [DecidableEq α] (A : MatG α) : ℕ → MatG α
  | 0 => eyeM (nrows A)
  | k + 1 => matMulT (matPowT A k) A

/-- `A ** k` for `np.matrix`: requires a square matrix. -/
def matPow {α : Type} [CommRing α] [DecidableEq α] (A : MatG α) (k : ℕ) :
    Except String (MatG α) :=
  if nrows A = ncols A then .ok (matPowT A k) else .error "matrix power: input must be square"

/-- `M.T` (always produces a rectangular result, like numpy). -/
def transposeT {α : Type} [Zero α] (M : MatG α) : MatG α :=
  (List.range (ncols M)).map fun j => M.map fun r => r.getD j 0

/-- `M.H`: the conjugate transpose. -/
def ctranspose (M : Mat) : Mat := transposeT (M.map (List.map Cq.conj))

/-- `np.asmatrix(M[:, i]).T`: column `i` of `M` as a column matrix. -/
def colMat {α : Type} [Zero α] (M : MatG α) (i : ℕ) : MatG α :=
  M.map fun r => [r.getD i 0]

/-- Sum of squared entry magnitudes: `np.linalg.norm M` is zero exactly
when this rational is zero. -/
def matNormSq (M : Mat) : ℚ := (M.map fun r => (r.map Cq.normSq).sum).sum

/-- `np.sum` over a vector. -/
def vecSum (v : List Cq) : Cq := v.sum

/-- Horizontal concatenation of blocks, unchecked. -/
def hstackT {α : Type} : List (MatG α) → MatG α
  | [] => []
  | b :: rest => rest.foldl (fun acc m => List.zipWith (· ++ ·) acc m) b

/-- `np.hstack`: all blocks must have the same row count. -/
def hstackE {α : Type} (bs : List (MatG α)) : Except String (MatG α) :=
  match bs with
  | [] => .error "hstack: need at least one array"
  | b :: rest =>
    if rest.all fun m => decide (nrows m = nrows b) then .ok (hstackT (b :: rest))
    else .error "hstack: row counts differ"

/-- Vertical concatenation of blocks, unchecked. -/
def vstackT {α : Type} : List (MatG α) → MatG α
  | [] => []
  | b :: rest => b ++ vstackT rest

/-- `np.vstack`: all blocks must have the same column count. -/
def vstackE {α : Type} (bs : List (MatG α)) : Except String (MatG α) :=
  match bs with
  | [] => .error "vstack: need at least one array"
  | b :: rest =>
    if rest.all fun m => decide (ncols m = ncols b) then .ok (vstackT (b :: rest))
    else .error "vstack: column counts differ"

/-- `np.rint` on an exact rational: round half to even. -/
def rintQ (q : ℚ) : ℤ :=
  let f := ⌊q⌋
  let r := q - f
  if r < 1 / 2 then f
  else if 1 / 2 < r then f + 1
  else if f % 2 = 0 then f else f + 1

/-- `np.around (·, 3)` on an exact rational scalar. -/
def round3 (q : ℚ) : ℚ := (rintQ (q * 1000) : ℚ) / 1000

/-- `np.around (·, 3)` on a complex scalar: both parts are rounded. -/
def around3 (c : Cq) : Cq := ⟨round3 c.re, round3 c.im⟩

/-- The eigen-decomposition provider (`scipy.linalg.eig` with one side
requested): eigenvalues together with the matrix whose columns are the
eigenvectors of that side, or a failure. -/
def EigProvider := Mat → Except String (List Cq × Mat)

/-- Embedding of `state_controllability(A, B)` (Chapter_04.py, lines 7-42).
The scipy eigen call is the abstract provider `eig`; everything after it is
translated statement by statement: input pole vectors `u_p i = B.H * vl[:,i].T`
for `i < vl.shape[1]`, the exact-zero norm decision, and the controllability
matrix `hstack [A**n * B for n in range (A.shape[1])]`. -/
def state_controllability (eig : EigProvider) (A B : Mat) :
    Except String (Bool × List Mat × Mat) := do
  let (_ev, vl) ← eig A
  let u_p ← (List.range (ncols vl)).mapM fun i => matMul (ctranspose B) (colMat vl i)
  let state_control := !(u_p.any fun x => decide (matNormSq x = 0))
  let c_plus ← (List.range (ncols A)).mapM fun n => do matMul (← matPow A n) B
  let control_matrix ← hstackE c_plus
  return (state_control, u_p, control_matrix)

/-- Embedding of `state_observability(A, C)` (Chapter_04.py, lines 45-69):
output pole vectors `around (C.dot x, 3)` for the rows `x` of `vr.T`, the
exact-zero sum decision, and the observability matrix
`vstack [C * A**n for n in range (A.shape[1])]`. -/
def state_observability (eig : EigProvider) (A C : Mat) :
    Except String (Bool × List (List Cq) × Mat) := do
  let (_ev, vr) ← eig A
  let out_pole_vec ← (transposeT vr).mapM fun x => do
    let y ← matVec C x
    return y.map around3
  let state_obsr := !(out_pole_vec.any fun x => decide (vecSum x = 0))
  let o_plus ← (List.range (ncols A)).mapM fun n => do matMul C (← matPow A n)
  let observe_matrix ← vstackE o_plus
  return (state_obsr, out_pole_vec, observe_matrix)

/-- Embedding of `is_min_realisation(A, B, C)` (Chapter_04.py, lines 72-83):
observability first, then controllability, then the bare conjunction. -/
def is_min_realisation (eig_l eig_r : EigProvider) (A B C : Mat) :
    Except String Bool := do
  let (state_obsr, _out_pole_vec, _observe_matrix) ← state_observability eig_r A C
  let (state_control, _in_pole_vec, _control_matrix) ← state_controllability eig_l A B
  return state_control && state_obsr

/-- One returned entry of `pole_zero_directions`, depending on
`display_type`: input direction only, output direction only, or the
`(pole/zero, input direction, output direction)` triple. -/
inductive PZ where
  | dirIn (u : List Cq)
  | dirOut (y : List Cq)
  | triple (d : Cq) (u y : List Cq)
deriving DecidableEq, Repr

/-- Numpy column indexing `M[:, i]` with a possibly negative index
(`-1` selects the last column). -/
def npCol {α : Type} [Zero α] (M : MatG α) (i : ℤ) : List α :=
  M.map fun r => r.getD (if i < 0 then ((r.length : ℤ) + i).toNat else i.toNat) 0

/-- The SVD provider from `utils` (external collaborator): a complex matrix
to its `(U, Sigma, V)` factors. -/
def SVDProvider := Mat → Mat × Mat × Mat

/-- The loop body of `pole_zero_directions` for one location `d`:
evaluate `g = G (d + e)`, take `U, _, V = SVD g`, select column `dt` of `V`
(input direction) and of `U` (output direction), and package the entry
according to `display_type`. -/
def pz_entry (svd : SVDProvider) (G : Cq → Mat) (dt : ℤ) (e : ℚ)
    (display_type : String) (d : Cq) : PZ :=
  let g := G (d + Cq.ofQ e)
  let U := (svd g).1
  let V := (svd g).2.2
  let u := npCol V dt
  let y := npCol U dt
  if display_type = "u" then .dirIn u
  else if display_type = "y" then .dirOut y
  else .triple d u y

/-- Embedding of `pole_zero_directions(G, vec, dir_type, display_type, e)`
(Chapter_04.py, lines 86-155).  `dir_type = "p"` selects column index `0`
and keeps `e`; any other `dir_type` falls into the `else` branch, which
selects column index `-1` and overwrites `e` with `0`.  The function never
raises: every location is mapped to one entry. -/
def pole_zero_directions (svd : SVDProvider) (G : Cq → Mat) (vec : List Cq)
    (dir_type display_type : String) (e : ℚ) : List PZ :=
  let dt : ℤ := if dir_type = "p" then 0 else -1
  let e' : ℚ := if dir_type = "p" then e else 0
  vec.map (pz_entry svd G dt e' display_type)

/-- Entry `(i, j)` of a 2-D array, with `0` outside the bounds. -/
def entG {α : Type} [Zero α] (M : MatG α) (i j : ℕ) : α := (M.getD i []).getD j 0

/-- The glued Rosenbrock matrix `m = vstack (hstack (A, B), hstack (C, D))`
of `zero` (Chapter_04.py, lines 165-167), with numpy's stacking errors. -/
def zero_M (A B C D : MatQ) : Except String MatQ := do
  let top ← hstackE [A, B]
  let bot ← hstackE [C, D]
  vstackE [top, bot]

/-- The glued block-identity `p = vstack (hstack (p1, p2), hstack (p3, p4))`
with `p1 = eye rowsA`, `p2 = zeros (rowsB, colsB)`, `p3 = zeros (rowsC, colsC)`,
`p4 = zeros (rowsD, colsD)` (Chapter_04.py, lines 169-179). -/
def zero_Ig (A B C D : MatQ) : Except String MatQ := do
  let top ← hstackE [(eyeM (nrows A) : MatQ), zerosM (nrows B) (ncols B)]
  let bot ← hstackE [(zerosM (nrows C) (ncols C) : MatQ), zerosM (nrows D) (ncols D)]
  vstackE [top, bot]

/-- Whether two 2-D arrays have identical shapes (row count and every row
length), the requirement of sympy matrix subtraction. -/
def sameShape {α β : Type} (X : MatG α) (Y : MatG β) : Bool :=
  decide (X.map List.length = Y.map List.length)

/-- The symbolic pencil `f = z * Ig - M` of `zero` (Chapter_04.py, lines
180-182), entrywise over exact polynomials in the symbol `z`. -/
noncomputable def zero_pencil (A B C D : MatQ) : Except String (MatG (Polynomial ℚ)) := do
  let m ← zero_M A B C D
  let p ← zero_Ig A B C D
  if sameShape p m then
    return List.zipWith
      (fun prow mrow => List.zipWith
        (fun ig mij => Polynomial.X * Polynomial.C ig - Polynomial.C mij) prow mrow) p m
  else .error "matrix subtraction: shape mismatch"

/-- The exact symbolic determinant `zf = f.det()` (Chapter_04.py, line 183).
Sympy computes the exact determinant of a square matrix and raises on a
non-square one; the determinant itself is embedded as `Matrix.det`. -/
noncomputable def zero_det (A B C D : MatQ) : Except String (Polynomial ℚ) := do
  let f ← zero_pencil A B C D
  if f.length = ncols f then
    return Matrix.det (Matrix.of fun i j : Fin f.length => entG f i.val j.val)
  else .error "det: matrix must be square"

/-- Embedding of `zero(A, B, C, D)` (Chapter_04.py, lines 158-186).  The
symbolic solving provider (`sp.solve` on a polynomial in one symbol) is
modelled per its interface: the exact set of complex roots of the
polynomial, unfiltered. -/
noncomputable def zero (A B C D : MatQ) : Except String (Set ℂ) := do
  let zf ← zero_det A B C D
  return {s : ℂ | Polynomial.aeval s zf = 0}

/-- A probe transfer function recording its evaluation point as the single
matrix entry, so the returned directions exhibit where `G` was evaluated. -/
def gProbe : Cq → Mat := fun s => [[s]]

/-- A trivial SVD provider returning the input matrix as each factor. -/
def svdProbe : SVDProvider := fun g => (g, g, g)

theorem ofQ_zero : Cq.ofQ 0 = 0 := rfl

theorem add_ofQ_ne_self {e : ℚ} (he : e ≠ 0) (d : Cq) : d + Cq.ofQ e ≠ d := by
  intro h
  have hre : (d + Cq.ofQ e).re = d.re := congrArg Cq.re h
  simp [Cq.ofQ] at hre
  exact he hre

/-- C5: for every SVD provider, transfer function, location list and
epsilon, `pole_zero_directions` decomposes the evaluated matrix by SVD and
selects the first column (index 0) of each factor for `dir_type = "p"` and
the last column (index -1) for `dir_type = "z"`; the input direction is the
selected column of `V` and the output direction the selected column of `U`. -/
theorem C5_svd_column_selection (svd : SVDProvider) (G : Cq → Mat)
    (vec : List Cq) (e : ℚ) :
    pole_zero_directions svd G vec "p" "a" e =
      vec.map (fun d => PZ.triple d (npCol (svd (G (d + Cq.ofQ e))).2.2 0)
        (npCol (svd (G (d + Cq.ofQ e))).1 0)) ∧
    pole_zero_directions svd G vec "z" "a" e =
      vec.map (fun d => PZ.triple d (npCol (svd (G d)).2.2 (-1))
        (npCol (svd (G d)).1 (-1))) := by
  constructor <;> · simp [pole_zero_directions, pz_entry, ofQ_zero]

/-- C6: for every location list of length `k` and every display type,
`pole_zero_directions` returns exactly `k` entries, in input order: entry
`i` is the per-location result for `vec.getD i 0`, and the display mode
only selects what that entry contains. -/
theorem C6_length_order_preserved (svd : SVDProvider) (G : Cq → Mat)
    (vec : List Cq) (dir_type display_type : String) (e : ℚ) :
    (pole_zero_directions svd G vec dir_type display_type e).length = vec.length ∧
    ∀ i, i < vec.length →
      (pole_zero_directions svd G vec dir_type display_type e).getD i (PZ.triple 0 [] []) =
        pz_entry svd G (if dir_type = "p" then 0 else -1)
          (if dir_type = "p" then e else 0) display_type (vec.getD i 0) := by
  refine ⟨by simp [pole_zero_directions], fun i hi => ?_⟩
  simp only [pole_zero_directions, List.getD_eq_getElem?_getD, List.getElem?_map]
  rw [List.getElem?_eq_getElem hi]
  simp

/-- C6 witness: the theorem applied to a singleton location list at
index 0. -/
theorem C6_length_order_witness :
    (pole_zero_directions svdProbe gProbe [Cq.unitIm] "p" "a" 0).length = 1 ∧
    (pole_zero_directions svdProbe gProbe [Cq.unitIm] "p" "a" 0).getD 0 (PZ.triple 0 [] []) =
      pz_entry svdProbe gProbe (if "p" = "p" then 0 else -1)
        (if "p" = "p" then (0 : ℚ) else 0) "a" ([Cq.unitIm].getD 0 0) := by
  have h := C6_length_order_preserved svdProbe gProbe [Cq.unitIm] "p" "a" 0
  exact ⟨h.1, h.2 0 (by decide)⟩

/-- C10: any `dir_type` other than the exact string `"p"` (not only `"z"`)
raises no error and behaves exactly as the zero case: epsilon is forced to
`0` and the last column (index `-1`) is selected. -/
theorem C10_non_p_dir_type_is_zero_case (svd : SVDProvider) (G : Cq → Mat)
    (vec : List Cq) (display_type : String) (e : ℚ) (dir_type : String)
    (h : dir_type ≠ "p") :
    pole_zero_directions svd G vec dir_type display_type e =
      pole_zero_directions svd G vec "z" display_type e := by
  simp [pole_zero_directions, h]

/-- C10 witness: the invalid direction string `"x"` is treated as the zero
case. -/
theorem C10_non_p_dir_type_witness :
    pole_zero_directions svdProbe gProbe [Cq.unitIm, 0] "x" "u" (1/2) =
      pole_zero_directions svdProbe gProbe [Cq.unitIm, 0] "z" "u" (1/2) :=
  C10_non_p_dir_type_is_zero_case svdProbe gProbe [Cq.unitIm, 0] "u" (1/2) "x" (by decide)

/-- C4 counterexample: with `dir_type = "p"` and the (legal) argument
`e = 0`, `G` is evaluated exactly at the location, contrary to the claim
that the evaluation is never exactly at the location.  The probe transfer
function records its evaluation point, and the run returns the location
itself as the recorded point; the run is moreover indistinguishable from a
zero-direction run on this 1-column system. -/
theorem C4_eval_at_location_cex :
    pole_zero_directions svdProbe gProbe [Cq.unitIm] "p" "a" 0 =
      [PZ.triple Cq.unitIm [Cq.unitIm] [Cq.unitIm]] ∧
    pole_zero_directions svdProbe gProbe [Cq.unitIm] "p" "a" 0 =
      pole_zero_directions svdProbe gProbe [Cq.unitIm] "z" "a" (1/2) := by
  constructor <;>
    simp [pole_zero_directions, pz_entry, svdProbe, gProbe, npCol, ofQ_zero]

/-- C4 (amended): with `dir_type = "z"` the supplied epsilon is ignored
(forced to `0`); with `dir_type = "p"` the transfer function is evaluated
at `location + e` — equivalently, shifting `G` by `e` and using epsilon `0`
gives the same run — and that point differs from the location whenever
`e ≠ 0` (for `e = 0` it is exactly the location). -/
theorem C4_epsilon_handling_amended (svd : SVDProvider) (G : Cq → Mat)
    (vec : List Cq) (display_type : String) (e : ℚ) :
    pole_zero_directions svd G vec "z" display_type e =
      pole_zero_directions svd G vec "z" display_type 0 ∧
    pole_zero_directions svd G vec "p" display_type e =
      pole_zero_directions svd (fun s => G (s + Cq.ofQ e)) vec "p" display_type 0 ∧
    (e ≠ 0 → ∀ d : Cq, d + Cq.ofQ e ≠ d) := by
  refine ⟨by simp [pole_zero_directions], ?_, fun he d => add_ofQ_ne_self he d⟩
  simp [pole_zero_directions, pz_entry, ofQ_zero]

/-- C4 witness: the amended theorem applied with `e = 1/2 ≠ 0`. -/
theorem C4_epsilon_handling_witness :
    pole_zero_directions svdProbe gProbe [Cq.unitIm] "p" "a" (1/2) =
      pole_zero_directions svdProbe (fun s => gProbe (s + Cq.ofQ (1/2))) [Cq.unitIm] "p" "a" 0 ∧
    Cq.unitIm + Cq.ofQ (1/2) ≠ Cq.unitIm := by
  have h := C4_epsilon_handling_amended svdProbe gProbe [Cq.unitIm] "a" (1/2)
  exact ⟨h.2.1, h.2.2 (by norm_num) Cq.unitIm⟩


@[simp] theorem ok_bind {β γ : Type} (x : β) (f : β → Except String γ) :
    (Except.ok x >>= f : Except String γ) = f x := rfl

theorem mapM_ok {β γ : Type} (f : β → Except String γ) (g : β → γ) :
    ∀ l : List β, (∀ a ∈ l, f a = .ok (g a)) → l.mapM f = .ok (l.map g)
  | [], _ => rfl
  | a :: l, h => by
    rw [List.mapM_cons, h a (by simp), mapM_ok f g l (fun x hx => h x (by simp [hx]))]
    rfl

theorem mapM_cons_error {β γ : Type} {f : β → Except String γ} {a : β} {l : List β}
    {msg : String} (h : f a = .error msg) : (a :: l).mapM f = .error msg := by
  rw [List.mapM_cons, h]
  rfl

theorem getD_map_range {β : Type} (f : ℕ → β) {n k : ℕ} (h : k < n) (d : β) :
    ((List.range n).map f).getD k d = f k := by
  rw [List.getD_eq_getElem?_getD, List.getElem?_map, List.getElem?_range h]
  rfl

section MatLemmas

variable {α : Type} [CommRing α] [DecidableEq α]

@[simp] theorem nrows_matMulT (X Y : MatG α) : nrows (matMulT X Y) = nrows X := by
  simp [matMulT, nrows]

@[simp] theorem length_rowMulT (r : List α) (Y : MatG α) :
    (rowMulT r Y).length = ncols Y := by
  simp [rowMulT]

theorem getD_rowMulT (r : List α) (Y : MatG α) {j : ℕ} (h : j < ncols Y) :
    (rowMulT r Y).getD j 0 =
      ∑ k ∈ Finset.range (nrows Y), r.getD k 0 * (Y.getD k []).getD j 0 := by
  rw [rowMulT, getD_map_range _ h]

theorem getD_matMulT (X Y : MatG α) {i : ℕ} (h : i < nrows X) :
    (matMulT X Y).getD i [] = rowMulT (X.getD i []) Y := by
  rw [matMulT, List.getD_eq_getElem?_getD, List.getElem?_map,
    List.getElem?_eq_getElem h]
  simp [List.getD_eq_getElem?_getD, List.getElem?_eq_getElem h]

theorem ncols_matMulT (X Y : MatG α) (h : 0 < nrows X) :
    ncols (matMulT X Y) = ncols Y := by
  cases X with
  | nil => simp [nrows] at h
  | cons r X => simp [matMulT, ncols]

@[simp] theorem nrows_eyeM (n : ℕ) : nrows (eyeM n : MatG α) = n := by
  simp [eyeM, nrows]

@[simp] theorem ncols_eyeM (n : ℕ) : ncols (eyeM n : MatG α) = n := by
  cases n with
  | zero => rfl
  | succ m => simp [eyeM, ncols, List.range_succ_eq_map]

@[simp] theorem nrows_matPowT (A : MatG α) (k : ℕ) : nrows (matPowT A k) = nrows A := by
  induction k with
  | zero => simp [matPowT]
  | succ k ih => simp [matPowT, ih]

theorem ncols_matPowT (A : MatG α) (hsq : nrows A = ncols A) (k : ℕ) :
    ncols (matPowT A k) = nrows A := by
  induction k with
  | zero => simp [matPowT]
  | succ k ih =>
    rcases Nat.eq_zero_or_pos (nrows A) with h0 | hpos
    · have h1 := nrows_matPowT A k
      simp only [nrows] at h1 h0
      have hnil : matPowT A k = [] := List.length_eq_zero.mp (by omega)
      rw [matPowT, hnil]
      simp [matMulT, ncols, nrows, h0]
    · rw [matPowT, ncols_matMulT _ _ (by simp [hpos]), ← hsq]

theorem matMul_ok (X Y : MatG α) (h : ncols X = nrows Y) :
    matMul X Y = .ok (matMulT X Y) := by
  simp [matMul, h]

theorem matPow_ok (A : MatG α) (k : ℕ) (h : nrows A = ncols A) :
    matPow A k = .ok (matPowT A k) := by
  simp [matPow, h]

@[simp] theorem nrows_colMat (M : MatG α) (i : ℕ) : nrows (colMat M i) = nrows M := by
  simp [colMat, nrows]

theorem ncols_map_rows {β : Type} (f : List α → List β)
    (hf : ∀ r, (f r).length = r.length) (M : MatG α) : ncols (M.map f) = ncols M := by
  cases M with
  | nil => rfl
  | cons r M => simp [ncols, hf]

theorem ncols_transposeT (M : MatG α) (h : 0 < ncols M) :
    ncols (transposeT M) = nrows M := by
  obtain ⟨c, hc⟩ : ∃ c, ncols M = c + 1 := ⟨ncols M - 1, by omega⟩
  rw [transposeT, hc, List.range_succ_eq_map]
  simp [ncols, nrows]

theorem ncols_ctranspose (B : Mat) (h : 0 < ncols B) : ncols (ctranspose B) = nrows B := by
  have h1 : ncols (B.map (List.map Cq.conj)) = ncols B :=
    ncols_map_rows _ (by simp) B
  rw [ctranspose, ncols_transposeT _ (by rw [h1]; exact h)]
  simp [nrows]

theorem hstackE_ok (b : MatG α) (rest : List (MatG α))
    (h : ∀ m ∈ rest, nrows m = nrows b) :
    hstackE (b :: rest) = .ok (hstackT (b :: rest)) := by
  have hall : (rest.all fun m => decide (nrows m = nrows b)) = true := by
    simp only [List.all_eq_true, decide_eq_true_eq]
    exact h
  simp [hstackE, hall]

theorem vstackE_ok (b : MatG α) (rest : List (MatG α))
    (h : ∀ m ∈ rest, ncols m = ncols b) :
    vstackE (b :: rest) = .ok (vstackT (b :: rest)) := by
  have hall : (rest.all fun m => decide (ncols m = ncols b)) = true := by
    simp only [List.all_eq_true, decide_eq_true_eq]
    exact h
  simp [vstackE, hall]

theorem nrows_foldl_zip (rest : List (MatG α)) :
    ∀ acc : MatG α, (∀ m ∈ rest, nrows m = nrows acc) →
      nrows (rest.foldl (fun a m => List.zipWith (· ++ ·) a m) acc) = nrows acc := by
  induction rest with
  | nil => intro acc _; rfl
  | cons m rest ih =>
    intro acc h
    have hm : nrows m = nrows acc := h m (by simp)
    have hz : nrows (List.zipWith (· ++ ·) acc m) = nrows acc := by
      simp only [nrows] at *
      simp [List.length_zipWith]
      omega
    rw [List.foldl_cons, ih _ (fun m' hm' => by rw [hz]; exact h m' (by simp [hm']))]
    exact hz

theorem rowlen_foldl_zip (rest : List (MatG α)) :
    ∀ (acc : MatG α) (la c : ℕ),
      (∀ r ∈ acc, r.length = la) →
      (∀ m ∈ rest, nrows m = nrows acc ∧ ∀ r ∈ m, r.length = c) →
      ∀ r ∈ rest.foldl (fun a m => List.zipWith (· ++ ·) a m) acc,
        r.length = la + rest.length * c := by
  induction rest with
  | nil => intro acc la c hacc _ r hr; simpa using hacc r hr
  | cons m rest ih =>
    intro acc la c hacc h r hr
    rw [List.foldl_cons] at hr
    have hm := h m (by simp)
    have hrows : ∀ r' ∈ List.zipWith (· ++ ·) acc m, r'.length = la + c := by
      intro r' hr'
      obtain ⟨i, hi, heq⟩ := List.mem_iff_getElem.mp hr'
      have hia : i < acc.length := by
        simp [List.length_zipWith] at hi
        omega
      have him : i < m.length := by
        simp [List.length_zipWith] at hi
        omega
      rw [← heq, List.getElem_zipWith]
      have h1 : acc[i].length = la := hacc _ (acc.getElem_mem hia)
      have h2 : m[i].length = c := hm.2 _ (m.getElem_mem him)
      simp [h1, h2]
    have hrest : ∀ m' ∈ rest, nrows m' = nrows (List.zipWith (· ++ ·) acc m) ∧
        ∀ r' ∈ m', r'.length = c := by
      intro m' hm'
      refine ⟨?_, (h m' (by simp [hm'])).2⟩
      have hz : nrows (List.zipWith (· ++ ·) acc m) = nrows acc := by
        have := hm.1
        simp only [nrows] at *
        simp [List.length_zipWith]
        omega
      rw [hz]
      exact (h m' (by simp [hm'])).1
    have key := ih (List.zipWith (· ++ ·) acc m) (la + c) c hrows hrest r hr
    rw [key]
    simp only [List.length_cons]
    ring

end MatLemmas

theorem state_controllability_eval (eig : EigProvider) (A B : Mat) (ev : List Cq)
    (vl : Mat) (heig : eig A = .ok (ev, vl)) (hcolB : 0 < ncols B)
    (hBvl : nrows B = nrows vl) (hsq : nrows A = ncols A) (hAB : ncols A = nrows B)
    (hposA : 0 < ncols A) :
    state_controllability eig A B =
      .ok (!(((List.range (ncols vl)).map fun i =>
              matMulT (ctranspose B) (colMat vl i)).any fun x => decide (matNormSq x = 0)),
           (List.range (ncols vl)).map fun i => matMulT (ctranspose B) (colMat vl i),
           hstackT ((List.range (ncols A)).map fun n => matMulT (matPowT A n) B)) := by
  have hup : ∀ i ∈ List.range (ncols vl),
      matMul (ctranspose B) (colMat vl i) = .ok (matMulT (ctranspose B) (colMat vl i)) := by
    intro i _
    exact matMul_ok _ _ (by rw [ncols_ctranspose B hcolB, nrows_colMat, hBvl])
  have hc : ∀ n ∈ List.range (ncols A),
      (matPow A n >>= fun p => matMul p B) = .ok (matMulT (matPowT A n) B) := by
    intro n _
    rw [matPow_ok A n hsq, ok_bind]
    exact matMul_ok _ _ (by rw [ncols_matPowT A hsq n, hsq, hAB])
  obtain ⟨k, hkA⟩ : ∃ k, ncols A = k + 1 := ⟨ncols A - 1, by omega⟩
  unfold state_controllability
  rw [heig, ok_bind]
  dsimp only
  rw [mapM_ok _ (fun i => matMulT (ctranspose B) (colMat vl i)) _ hup, ok_bind,
    mapM_ok _ (fun n => matMulT (matPowT A n) B) _ hc, ok_bind]
  have hAn : ∀ n : ℕ, nrows (matMulT (matPowT A n) B) = nrows A := by
    intro n
    rw [nrows_matMulT, nrows_matPowT]
  rw [hkA, List.range_succ_eq_map, List.map_cons]
  rw [hstackE_ok _ _ ?hall, ok_bind]
  case hall =>
    intro m hm
    obtain ⟨n, _, rfl⟩ := List.mem_map.mp hm
    rw [hAn, hAn]
  rfl

section MatAlgebra

variable {α : Type} [CommRing α] [DecidableEq α]

theorem rowMulT_assoc (r : List α) (Y Z : MatG α) (h1 : ncols Y = nrows Z)
    (h2 : 0 < nrows Y) : rowMulT (rowMulT r Y) Z = rowMulT r (matMulT Y Z) := by
  have hcols : ncols (matMulT Y Z) = ncols Z := ncols_matMulT Y Z h2
  simp only [rowMulT, hcols, nrows_matMulT]
  apply List.map_congr_left
  intro j hj
  have hjZ : j < ncols Z := List.mem_range.mp hj
  have lhs : ∀ l ∈ Finset.range (nrows Z),
      ((List.range (ncols Y)).map fun j2 =>
          ∑ k ∈ Finset.range (nrows Y), r.getD k 0 * (Y.getD k []).getD j2 0).getD l 0 *
          (Z.getD l []).getD j 0 =
        (∑ k ∈ Finset.range (nrows Y), r.getD k 0 * (Y.getD k []).getD l 0) *
          (Z.getD l []).getD j 0 := by
    intro l hl
    rw [getD_map_range _ (by rw [h1]; exact Finset.mem_range.mp hl)]
  have rhs : ∀ k ∈ Finset.range (nrows Y),
      r.getD k 0 * ((matMulT Y Z).getD k []).getD j 0 =
        r.getD k 0 *
          ∑ l ∈ Finset.range (nrows Z), (Y.getD k []).getD l 0 * (Z.getD l []).getD j 0 := by
    intro k hk
    rw [getD_matMulT Y Z (Finset.mem_range.mp hk), getD_rowMulT _ Z hjZ]
  rw [Finset.sum_congr rfl lhs, Finset.sum_congr rfl rhs]
  simp_rw [Finset.sum_mul, Finset.mul_sum, mul_assoc]
  exact Finset.sum_comm

theorem matMulT_assoc (X Y Z : MatG α) (h1 : ncols Y = nrows Z) (h2 : 0 < nrows Y) :
    matMulT (matMulT X Y) Z = matMulT X (matMulT Y Z) := by
  simp only [matMulT, List.map_map]
  apply List.map_congr_left
  intro r _
  exact rowMulT_assoc r Y Z h1 h2

theorem rowMulT_eye (r : List α) (n : ℕ) (hr : r.length = n) :
    rowMulT r (eyeM n) = r := by
  apply List.ext_getElem
  · simp [hr]
  · intro j hj hjr
    have hjn : j < n := by simpa [hr] using hjr
    simp only [rowMulT, ncols_eyeM]
    rw [List.getElem_map, List.getElem_range]
    have hval : ∀ k ∈ Finset.range (nrows (eyeM n : MatG α)),
        r.getD k 0 * ((eyeM n : MatG α).getD k []).getD j 0 =
          if k = j then r.getD k 0 else 0 := by
      intro k hk
      have hkn : k < n := by simpa using Finset.mem_range.mp hk
      rw [show ((eyeM n : MatG α).getD k []) = (List.range n).map
            (fun j => if k = j then (1:α) else 0) from getD_map_range _ hkn _]
      rw [getD_map_range _ hjn]
      by_cases hkj : k = j <;> simp [hkj]
    rw [Finset.sum_congr rfl hval]
    simp only [nrows_eyeM]
    rw [Finset.sum_ite_eq' (Finset.range n) j (fun k => r.getD k 0)]
    simp [hjn, List.getD_eq_getElem?_getD, List.getElem?_eq_getElem hjr]

theorem matMulT_eye_right (X : MatG α) (n : ℕ) (hrect : ∀ r ∈ X, r.length = n) :
    matMulT X (eyeM n) = X := by
  apply List.ext_getElem
  · simp [matMulT]
  · intro i hi hiX
    simp only [matMulT]
    rw [List.getElem_map]
    exact rowMulT_eye _ n (hrect _ (X.getElem_mem hiX))

theorem matMulT_eye_left (B : MatG α) (n : ℕ) (hn : nrows B = n)
    (hrect : ∀ r ∈ B, r.length = ncols B) : matMulT (eyeM n) B = B := by
  apply List.ext_getElem
  · show nrows (matMulT (eyeM n) B) = nrows B
    rw [nrows_matMulT, nrows_eyeM, hn]
  · intro i hi hiB
    have hin : i < n := by simpa [matMulT, eyeM] using hi
    simp only [matMulT, eyeM]
    rw [List.getElem_map, List.getElem_map, List.getElem_range]
    apply List.ext_getElem
    · simp [hrect _ (B.getElem_mem hiB)]
    · intro j hj hjB
      have hjc : j < ncols B := by simpa using hj
      simp only [rowMulT]
      rw [List.getElem_map, List.getElem_range]
      have hval : ∀ k ∈ Finset.range (nrows B),
          ((List.range n).map fun j => if i = j then (1:α) else 0).getD k 0 *
              (B.getD k []).getD j 0 =
            if i = k then (B.getD k []).getD j 0 else 0 := by
        intro k hk
        have hkB : k < nrows B := Finset.mem_range.mp hk
        rw [getD_map_range _ (by rw [← hn]; exact hkB)]
        by_cases hik : i = k <;> simp [hik]
      rw [Finset.sum_congr rfl hval]
      rw [Finset.sum_ite_eq (Finset.range (nrows B)) i (fun k => (B.getD k []).getD j 0)]
      have hiB' : i ∈ Finset.range (nrows B) := Finset.mem_range.mpr (by simpa [nrows] using hiB)
      simp only [hiB', if_pos]
      have hBi : B.getD i [] = B[i] := by
        rw [List.getD_eq_getElem?_getD, List.getElem?_eq_getElem hiB]
        rfl
      rw [hBi, List.getD_eq_getElem?_getD, List.getElem?_eq_getElem hjB]
      rfl

/-- Specification-side form of the blocks of the controllability matrix:
`A ^ k * B` with the power written as repeated left multiplication by `A`,
following the wording of the data model. -/
def specPowMul (A B : MatG α) : ℕ → MatG α
  | 0 => B
  | k + 1 => matMulT A (specPowMul A B k)

theorem matPowT_succ_comm (A : MatG α) (hsq : nrows A = ncols A)
    (hrect : ∀ r ∈ A, r.length = ncols A) (hpos : 0 < nrows A) (k : ℕ) :
    matPowT A (k + 1) = matMulT A (matPowT A k) := by
  induction k with
  | zero =>
    show matMulT (eyeM (nrows A)) A = matMulT A (eyeM (nrows A))
    rw [matMulT_eye_left A (nrows A) rfl hrect,
      matMulT_eye_right A (nrows A) (fun r hr => by rw [hrect r hr, ← hsq])]
  | succ k ih =>
    show matMulT (matPowT A (k + 1)) A = _
    nth_rewrite 1 [ih]
    rw [matMulT_assoc A (matPowT A k) A (by rw [ncols_matPowT A hsq k, hsq])
      (by simpa using hpos)]
    rfl

theorem matMulT_pow_eq_specPowMul (A B : MatG α) (hsq : nrows A = ncols A)
    (hrectA : ∀ r ∈ A, r.length = ncols A) (hAB : ncols A = nrows B)
    (hrectB : ∀ r ∈ B, r.length = ncols B) (hpos : 0 < nrows A) (k : ℕ) :
    matMulT (matPowT A k) B = specPowMul A B k := by
  induction k with
  | zero =>
    show matMulT (eyeM (nrows A)) B = B
    exact matMulT_eye_left B (nrows A) (by rw [← hAB, ← hsq]) hrectB
  | succ k ih =>
    rw [matPowT_succ_comm A hsq hrectA hpos k,
      matMulT_assoc A (matPowT A k) B (by rw [ncols_matPowT A hsq k, hsq, hAB])
      (by simpa using hpos), ih]
    rfl

theorem hstackT_shape (g : ℕ → MatG α) (N c R : ℕ)
    (hrows : ∀ n, nrows (g n) = R) (hlen : ∀ n, ∀ r ∈ g n, r.length = c) (hN : 0 < N) :
    nrows (hstackT ((List.range N).map g)) = R ∧
    ∀ r ∈ hstackT ((List.range N).map g), r.length = N * c := by
  obtain ⟨k, rfl⟩ : ∃ k, N = k + 1 := ⟨N - 1, by omega⟩
  rw [List.range_succ_eq_map, List.map_cons]
  have hfold : hstackT (g 0 :: (((List.range k).map Nat.succ).map g)) =
      ((((List.range k).map Nat.succ).map g)).foldl
        (fun a m => List.zipWith (· ++ ·) a m) (g 0) := rfl
  constructor
  · rw [hfold, nrows_foldl_zip _ _ ?hr]
    · exact hrows 0
    case hr =>
      intro m hm
      obtain ⟨n, _, rfl⟩ := List.mem_map.mp hm
      rw [hrows, hrows]
  · intro r hr
    rw [hfold] at hr
    have key := rowlen_foldl_zip (((List.range k).map Nat.succ).map g) (g 0) c c
      (hlen 0) ?hrest r hr
    · rw [key]
      simp only [List.length_map, List.length_range]
      ring
    case hrest =>
      intro m hm
      obtain ⟨n, _, rfl⟩ := List.mem_map.mp hm
      exact ⟨by rw [hrows, hrows], hlen n⟩

end MatAlgebra

def eigProbe : EigProvider := fun A => .ok ([], eyeM (nrows A))

/-- C1: for every pair `(A, B)` (with conformable, nonempty shapes) and every
outcome `(ev, vl)` of the eigen-decomposition provider (the columns of `vl`
being the left eigenvectors of `A`), `state_controllability` computes one
input pole vector `u_p i = conjugate-transpose B * vl[:,i]` per eigenvector,
and its first component is `true` exactly when no input pole vector has
Euclidean norm exactly zero (an exact test: over exact arithmetic the norm
is zero iff the squared norm `matNormSq` is zero). -/
theorem C1_state_controllability (eig : EigProvider) (A B : Mat) (ev : List Cq)
    (vl : Mat) (heig : eig A = .ok (ev, vl)) (hcolB : 0 < ncols B)
    (hBvl : nrows B = nrows vl) (hsq : nrows A = ncols A) (hAB : ncols A = nrows B)
    (hposA : 0 < ncols A) :
    ∃ b ups cm, state_controllability eig A B = .ok (b, ups, cm) ∧
      ups = (List.range (ncols vl)).map (fun i => matMulT (ctranspose B) (colMat vl i)) ∧
      (b = true ↔ ∀ up ∈ ups, matNormSq up ≠ 0) := by
  refine ⟨_, _, _,
    state_controllability_eval eig A B ev vl heig hcolB hBvl hsq hAB hposA, rfl, ?_⟩
  simp [List.any_eq_true]

/-- C1 witness: the theorem applied to a concrete diagonal system. -/
theorem C1_witness :
    eigProbe [[1,0],[0,2]] = .ok ([], eyeM 2) ∧
    0 < ncols [[(1:Cq)],[1]] ∧
    nrows [[(1:Cq)],[1]] = nrows (eyeM 2 : Mat) ∧
    nrows [[(1:Cq),0],[0,2]] = ncols [[(1:Cq),0],[0,2]] ∧
    ncols [[(1:Cq),0],[0,2]] = nrows [[(1:Cq)],[1]] ∧
    0 < ncols [[(1:Cq),0],[0,2]] ∧
    ∃ b ups cm, state_controllability eigProbe [[1,0],[0,2]] [[1],[1]] = .ok (b, ups, cm) ∧
      ups = (List.range (ncols (eyeM 2 : Mat))).map
        (fun i => matMulT (ctranspose [[1],[1]]) (colMat (eyeM 2) i)) ∧
      (b = true ↔ ∀ up ∈ ups, matNormSq up ≠ 0) :=
  ⟨rfl, by decide, by decide, by decide, by decide, by decide,
    C1_state_controllability eigProbe [[1,0],[0,2]] [[1],[1]] [] (eyeM 2) rfl
      (by decide) (by decide) (by decide) (by decide) (by decide)⟩

/-- C7: for every `(A, B)` with `A` square `n x n` and `B` of matching row
count, the third component returned by `state_controllability` is the
horizontal concatenation `[B, A*B, A^2*B, ..., A^(n-1)*B]` (spec-side
`specPowMul`), with `n` rows each of length `n * m`. -/
theorem C7_controllability_matrix (eig : EigProvider) (A B : Mat) (ev : List Cq)
    (vl : Mat) (heig : eig A = .ok (ev, vl)) (hcolB : 0 < ncols B)
    (hBvl : nrows B = nrows vl) (hsq : nrows A = ncols A) (hAB : ncols A = nrows B)
    (hposA : 0 < ncols A)
    (hrectA : ∀ r ∈ A, r.length = ncols A) (hrectB : ∀ r ∈ B, r.length = ncols B) :
    ∃ b ups, state_controllability eig A B =
        .ok (b, ups, hstackT ((List.range (nrows A)).map (specPowMul A B))) ∧
      nrows (hstackT ((List.range (nrows A)).map (specPowMul A B))) = nrows A ∧
      ∀ r ∈ hstackT ((List.range (nrows A)).map (specPowMul A B)),
        r.length = nrows A * ncols B := by
  have hposR : 0 < nrows A := by rw [hsq]; exact hposA
  have hmap : (List.range (ncols A)).map (fun n => matMulT (matPowT A n) B) =
      (List.range (nrows A)).map (specPowMul A B) := by
    rw [hsq]
    exact List.map_congr_left fun n _ =>
      matMulT_pow_eq_specPowMul A B hsq hrectA hAB hrectB hposR n
  have hshape := hstackT_shape (fun n => matMulT (matPowT A n) B) (ncols A)
    (ncols B) (nrows A) (fun n => by rw [nrows_matMulT, nrows_matPowT])
    (fun n r hr => by
      obtain ⟨r2, _, rfl⟩ := List.mem_map.mp hr
      exact length_rowMulT r2 B) hposA
  rw [hmap] at hshape
  have he := state_controllability_eval eig A B ev vl heig hcolB hBvl hsq hAB hposA
  rw [hmap] at he
  exact ⟨_, _, he, hshape.1, fun r hr => by rw [hshape.2 r hr, hsq]⟩

/-- C7 witness: for `A = [[0,1],[0,0]]` and `B = [[0],[1]]` the returned
controllability matrix is the concatenation, which equals `[[0,1],[1,0]]`. -/
theorem C7_witness :
    eigProbe [[0,1],[0,0]] = .ok ([], eyeM 2) ∧
    0 < ncols [[(0:Cq)],[1]] ∧
    nrows [[(0:Cq)],[1]] = nrows (eyeM 2 : Mat) ∧
    nrows [[(0:Cq),1],[0,0]] = ncols [[(0:Cq),1],[0,0]] ∧
    ncols [[(0:Cq),1],[0,0]] = nrows [[(0:Cq)],[1]] ∧
    0 < ncols [[(0:Cq),1],[0,0]] ∧
    (∃ b ups, state_controllability eigProbe [[0,1],[0,0]] [[0],[1]] =
        .ok (b, ups, hstackT ((List.range 2).map (specPowMul [[0,1],[0,0]] [[0],[1]])))) ∧
    hstackT ((List.range 2).map (specPowMul ([[0,1],[0,0]] : Mat) [[0],[1]])) =
      [[0,1],[1,0]] := by
  have h := C7_controllability_matrix eigProbe [[0,1],[0,0]] [[0],[1]] [] (eyeM 2)
    rfl (by decide) (by decide) (by decide) (by decide) (by decide)
    (by decide) (by decide)
  obtain ⟨b, ups, hmain, -, -⟩ := h
  refine ⟨rfl, by decide, by decide, by decide, by decide, by decide, ⟨b, ups, hmain⟩, ?_⟩
  show hstackT [specPowMul [[0,1],[0,0]] [[0],[1]] 0,
    specPowMul [[0,1],[0,0]] [[0],[1]] 1] = [[0,1],[1,0]]
  simp only [specPowMul, hstackT, matMulT, rowMulT]
  norm_num [ncols, nrows, Finset.sum_range_succ]
  constructor

@[simp] theorem err_bind {β γ : Type} (e : String) (f : β → Except String γ) :
    (Except.error e >>= f : Except String γ) = .error e := rfl

theorem matVec_ok {α : Type} [CommRing α] (X : MatG α) (v : List α)
    (h : ncols X = v.length) :
    matVec X v = .ok (X.map fun r => (List.zipWith (· * ·) r v).sum) := by
  simp [matVec, h]

theorem state_observability_eval (eig : EigProvider) (A C : Mat) (ev : List Cq)
    (vr : Mat) (heig : eig A = .ok (ev, vr)) (hCvr : ncols C = nrows vr)
    (hsq : nrows A = ncols A) (hCA : ncols C = nrows A) (hposA : 0 < ncols A)
    (hposC : 0 < nrows C) :
    state_observability eig A C =
      .ok (!(((transposeT vr).map fun x =>
              (C.map fun r => (List.zipWith (· * ·) r x).sum).map around3).any
                fun y => decide (vecSum y = 0)),
           (transposeT vr).map fun x =>
              (C.map fun r => (List.zipWith (· * ·) r x).sum).map around3,
           vstackT ((List.range (ncols A)).map fun n => matMulT C (matPowT A n))) := by
  have hout : ∀ x ∈ transposeT vr,
      (matVec C x >>= fun y => pure (y.map around3)) =
        .ok ((C.map fun r => (List.zipWith (· * ·) r x).sum).map around3) := by
    intro x hx
    obtain ⟨j, _, rfl⟩ := List.mem_map.mp hx
    rw [matVec_ok C _ (by rw [hCvr]; simp [nrows]), ok_bind]
    rfl
  have ho : ∀ n ∈ List.range (ncols A),
      (matPow A n >>= fun p => matMul C p) = .ok (matMulT C (matPowT A n)) := by
    intro n _
    rw [matPow_ok A n hsq, ok_bind]
    exact matMul_ok _ _ (by rw [hCA, nrows_matPowT])
  have hcols : ∀ n : ℕ, ncols (matMulT C (matPowT A n)) = nrows A := by
    intro n
    rw [ncols_matMulT _ _ hposC, ncols_matPowT A hsq]
  obtain ⟨k, hkA⟩ : ∃ k, ncols A = k + 1 := ⟨ncols A - 1, by omega⟩
  unfold state_observability
  rw [heig, ok_bind]
  dsimp only
  rw [mapM_ok _ (fun x => (C.map fun r => (List.zipWith (· * ·) r x).sum).map around3) _ hout,
    ok_bind, mapM_ok _ (fun n => matMulT C (matPowT A n)) _ ho, ok_bind]
  rw [hkA, List.range_succ_eq_map, List.map_cons]
  rw [vstackE_ok _ _ ?hall, ok_bind]
  case hall =>
    intro m hm
    obtain ⟨n, _, rfl⟩ := List.mem_map.mp hm
    rw [hcols, hcols]
  rfl

/-- C2: for every pair `(A, C)` and every outcome `(ev, vr)` of the
eigen-decomposition provider (the columns of `vr` being the right
eigenvectors of `A`), `state_observability` computes for each right
eigenvector `x` the vector `around (C.dot x, 3)` (each component rounded to
3 decimal places), and its first component is `false` exactly when some
rounded vector has component-wise sum exactly zero. -/
theorem C2_state_observability (eig : EigProvider) (A C : Mat) (ev : List Cq)
    (vr : Mat) (heig : eig A = .ok (ev, vr)) (hCvr : ncols C = nrows vr)
    (hsq : nrows A = ncols A) (hCA : ncols C = nrows A) (hposA : 0 < ncols A)
    (hposC : 0 < nrows C) :
    ∃ b ys om, state_observability eig A C = .ok (b, ys, om) ∧
      ys = (transposeT vr).map
        (fun x => (C.map fun r => (List.zipWith (· * ·) r x).sum).map around3) ∧
      (b = false ↔ ∃ y ∈ ys, vecSum y = 0) := by
  refine ⟨_, _, _,
    state_observability_eval eig A C ev vr heig hCvr hsq hCA hposA hposC, rfl, ?_⟩
  simp [List.any_eq_true]

/-- C2 witness: the theorem applied to a concrete diagonal system. -/
theorem C2_witness :
    eigProbe [[1,0],[0,2]] = .ok ([], eyeM 2) ∧
    ncols [[(1:Cq),1]] = nrows (eyeM 2 : Mat) ∧
    nrows [[(1:Cq),0],[0,2]] = ncols [[(1:Cq),0],[0,2]] ∧
    ncols [[(1:Cq),1]] = nrows [[(1:Cq),0],[0,2]] ∧
    0 < ncols [[(1:Cq),0],[0,2]] ∧
    0 < nrows [[(1:Cq),1]] ∧
    ∃ b ys om, state_observability eigProbe [[1,0],[0,2]] [[1,1]] = .ok (b, ys, om) ∧
      ys = (transposeT (eyeM 2)).map
        (fun x => ([[(1:Cq),1]].map fun r => (List.zipWith (· * ·) r x).sum).map around3) ∧
      (b = false ↔ ∃ y ∈ ys, vecSum y = 0) :=
  ⟨rfl, by decide, by decide, by decide, by decide, by decide,
    C2_state_observability eigProbe [[1,0],[0,2]] [[1,1]] [] (eyeM 2) rfl
      (by decide) (by decide) (by decide) (by decide) (by decide)⟩

/-- C8: `is_min_realisation` returns exactly the conjunction of the boolean
returned by `state_controllability` and the boolean returned by
`state_observability`, and that conjunction is `true` iff both are `true`;
no further logic is applied. -/
theorem C8_is_min_realisation (eig_l eig_r : EigProvider) (A B C : Mat)
    (bo : Bool) (yo : List (List Cq)) (mo : Mat) (bc : Bool) (uc : List Mat) (mc : Mat)
    (ho : state_observability eig_r A C = .ok (bo, yo, mo))
    (hc : state_controllability eig_l A B = .ok (bc, uc, mc)) :
    is_min_realisation eig_l eig_r A B C = .ok (bc && bo) ∧
    ((bc && bo) = true ↔ bc = true ∧ bo = true) := by
  refine ⟨?_, by simp⟩
  unfold is_min_realisation
  rw [ho, ok_bind]
  dsimp only
  rw [hc, ok_bind]
  rfl

/-- C8 witness: the theorem applied to a concrete system, with the two
analyzer calls evaluated through their evaluation lemmas. -/
theorem C8_witness :
    ∃ bo bc : Bool,
      is_min_realisation eigProbe eigProbe [[1,0],[0,2]] [[1],[1]] [[1,1]] =
        .ok (bc && bo) ∧ ((bc && bo) = true ↔ bc = true ∧ bo = true) := by
  have ho := state_observability_eval eigProbe [[1,0],[0,2]] [[1,1]] [] (eyeM 2) rfl
    (by decide) (by decide) (by decide) (by decide) (by decide)
  have hc := state_controllability_eval eigProbe [[1,0],[0,2]] [[1],[1]] [] (eyeM 2) rfl
    (by decide) (by decide) (by decide) (by decide) (by decide)
  exact ⟨_, _, C8_is_min_realisation eigProbe eigProbe [[1,0],[0,2]] [[1],[1]] [[1,1]]
    _ _ _ _ _ _ ho hc⟩

/-- C9 counterexample: a call whose `B` violates the shape invariant
(`B` is 1-by-1 against a 2-by-2 `A`) is not rejected before the
eigen-decomposition: the eigen provider is still consulted (its failure
propagates verbatim), and with a working provider the shape mismatch only
surfaces later, as the pole-vector multiplication error — not as a
fail-fast shape check at the start of the call. -/
theorem C9_no_fail_fast_cex :
    state_controllability (fun _ => .error "eig reached") [[1,0],[0,1]] [[1]] =
      .error "eig reached" ∧
    state_controllability eigProbe [[1,0],[0,1]] [[1]] =
      .error "matmul: shapes not aligned" := by
  constructor
  · rfl
  · rfl

/-- C9 (amended): `state_controllability` performs no shape validation at
the start of the call.  The eigen-decomposition is attempted first even on
shape-violating inputs — any provider failure propagates unchanged — and a
mismatched `B` surfaces to the caller only from the input-pole-vector
matrix multiplication, after the eigen-decomposition. -/
theorem C9_shape_error_after_eig :
    (∀ (eig : EigProvider) (A B : Mat) (msg : String), eig A = .error msg →
      state_controllability eig A B = .error msg) ∧
    (∀ (eig : EigProvider) (A B : Mat) (ev : List Cq) (vl : Mat),
      eig A = .ok (ev, vl) → 0 < ncols vl → 0 < ncols B → nrows B ≠ nrows vl →
      state_controllability eig A B = .error "matmul: shapes not aligned") := by
  constructor
  · intro eig A B msg h
    unfold state_controllability
    rw [h]
    rfl
  · intro eig A B ev vl heig hvl hcolB hne
    obtain ⟨k, hk⟩ : ∃ k, ncols vl = k + 1 := ⟨ncols vl - 1, by omega⟩
    unfold state_controllability
    rw [heig, ok_bind]
    dsimp only
    rw [hk, List.range_succ_eq_map, mapM_cons_error ?hfst, err_bind]
    case hfst =>
      rw [matMul]
      rw [if_neg]
      rw [ncols_ctranspose B hcolB, nrows_colMat]
      exact hne

/-- C9 witness: both parts of the amended theorem applied at concrete
shape-violating inputs. -/
theorem C9_witness :
    state_controllability (fun _ => .error "nope") [[1]] [[1]] = .error "nope" ∧
    (eigProbe [[1,0],[0,1]] = .ok ([], eyeM 2) ∧ 0 < ncols (eyeM 2 : Mat) ∧
      0 < ncols [[(1:Cq),1]] ∧ nrows [[(1:Cq),1]] ≠ nrows (eyeM 2 : Mat)) ∧
    state_controllability eigProbe [[1,0],[0,1]] [[1,1]] =
      .error "matmul: shapes not aligned" :=
  ⟨C9_shape_error_after_eig.1 _ [[1]] [[1]] "nope" rfl,
   ⟨rfl, by decide, by decide, by decide⟩,
   C9_shape_error_after_eig.2 eigProbe [[1,0],[0,1]] [[1,1]] [] (eyeM 2) rfl
     (by decide) (by decide) (by decide)⟩

section GluedLemmas

variable {α : Type} [Zero α]

theorem row_glued_lo {X Y Z W : MatG α} {n : ℕ} (hX : X.length = n) (hY : Y.length = n)
    {i : ℕ} (hi : i < n) :
    ((List.zipWith (· ++ ·) X Y ++ List.zipWith (· ++ ·) Z W).getD i []) =
      X.getD i [] ++ Y.getD i [] := by
  have hz : i < (List.zipWith (· ++ ·) X Y).length := by
    simp [List.length_zipWith]
    omega
  rw [List.getD_append _ _ _ _ hz, List.getD_eq_getElem?_getD,
    List.getElem?_eq_getElem hz, Option.getD_some, List.getElem_zipWith]
  have hx : i < X.length := by omega
  have hy : i < Y.length := by omega
  rw [List.getD_eq_getElem?_getD, List.getElem?_eq_getElem hx, Option.getD_some,
    List.getD_eq_getElem?_getD, List.getElem?_eq_getElem hy, Option.getD_some]

theorem row_glued_hi {X Y Z W : MatG α} {n p : ℕ} (hX : X.length = n) (hY : Y.length = n)
    (hZ : Z.length = p) (hW : W.length = p) {k : ℕ} (hk : k < p) :
    ((List.zipWith (· ++ ·) X Y ++ List.zipWith (· ++ ·) Z W).getD (n + k) []) =
      Z.getD k [] ++ W.getD k [] := by
  have hlen : (List.zipWith (· ++ ·) X Y).length = n := by
    simp [List.length_zipWith]
    omega
  have hz : k < (List.zipWith (· ++ ·) Z W).length := by
    simp [List.length_zipWith]
    omega
  rw [List.getD_append_right _ _ _ _ (by omega), hlen, Nat.add_sub_cancel_left,
    List.getD_eq_getElem?_getD, List.getElem?_eq_getElem hz, Option.getD_some,
    List.getElem_zipWith]
  have hzz : k < Z.length := by omega
  have hw : k < W.length := by omega
  rw [List.getD_eq_getElem?_getD, List.getElem?_eq_getElem hzz, Option.getD_some,
    List.getD_eq_getElem?_getD, List.getElem?_eq_getElem hw, Option.getD_some]

theorem getD_append_lo {r1 r2 : List α} {a j : ℕ} (hr : r1.length = a) (hj : j < a) :
    (r1 ++ r2).getD j 0 = r1.getD j 0 :=
  List.getD_append _ _ _ _ (by omega)

theorem getD_append_hi {r1 r2 : List α} {a k : ℕ} (hr : r1.length = a) :
    (r1 ++ r2).getD (a + k) 0 = r2.getD k 0 := by
  rw [List.getD_append_right _ _ _ _ (by omega), hr, Nat.add_sub_cancel_left]

end GluedLemmas

theorem ent_eyeM (n i j : ℕ) (hi : i < n) (hj : j < n) :
    entG (eyeM n : MatQ) i j = if i = j then 1 else 0 := by
  rw [entG, eyeM, getD_map_range _ hi, getD_map_range _ hj]

theorem getD_replicate {α : Type} {a d : α} {n i : ℕ} :
    (List.replicate n a).getD i d = if i < n then a else d := by
  rw [List.getD_eq_getElem?_getD, List.getElem?_replicate]
  split <;> rfl

theorem ent_zerosM (r c i j : ℕ) : entG (zerosM r c : MatQ) i j = 0 := by
  rw [entG, zerosM, getD_replicate]
  split
  · rw [getD_replicate]
    split <;> rfl
  · rfl

section ZeroLemmas

@[simp] theorem nrows_zerosM {α : Type} [CommRing α] (r c : ℕ) :
    (zerosM r c : MatG α).length = r := by
  simp [zerosM]

theorem rows_zerosM {α : Type} [CommRing α] (r c : ℕ) :
    ∀ r2 ∈ (zerosM r c : MatG α), r2.length = c := by
  intro r2 hr2
  rw [zerosM] at hr2
  rw [List.eq_of_mem_replicate hr2]
  simp

theorem rows_eyeM {α : Type} [CommRing α] [DecidableEq α] (n : ℕ) :
    ∀ r ∈ (eyeM n : MatG α), r.length = n := by
  intro r hr
  obtain ⟨i, _, rfl⟩ := List.mem_map.mp hr
  simp

theorem ncols_eq {α : Type} (M : MatG α) {m c : ℕ} (hM : M.length = m) (h : 0 < m)
    (hr : ∀ r ∈ M, r.length = c) : ncols M = c := by
  cases M with
  | nil => simp at hM; omega
  | cons r M2 => simp [ncols, hr r (by simp)]

theorem ncols_zip_append {α : Type} (X Y : MatG α) {a b : ℕ}
    (hX : 0 < X.length) (hY : 0 < Y.length)
    (hrX : ∀ r ∈ X, r.length = a) (hrY : ∀ r ∈ Y, r.length = b) :
    ncols (List.zipWith (· ++ ·) X Y) = a + b := by
  cases X with
  | nil => simp at hX
  | cons x X2 =>
    cases Y with
    | nil => simp at hY
    | cons y Y2 => simp [ncols, hrX x (by simp), hrY y (by simp)]

theorem map_length_zip_append {α : Type} (X Y : MatG α) {a b : ℕ}
    (hrX : ∀ r ∈ X, r.length = a) (hrY : ∀ r ∈ Y, r.length = b) :
    (List.zipWith (· ++ ·) X Y).map List.length =
      List.replicate (min X.length Y.length) (a + b) := by
  apply List.ext_getElem
  · simp [List.length_zipWith]
  · intro i h1 h2
    rw [List.getElem_map, List.getElem_zipWith, List.getElem_replicate]
    have hx : i < X.length := by simp [List.length_zipWith] at h1; omega
    have hy : i < Y.length := by simp [List.length_zipWith] at h1; omega
    simp [hrX _ (X.getElem_mem hx), hrY _ (Y.getElem_mem hy)]

theorem row_length_of_map_length {α : Type} {M : MatG α} {N c : ℕ}
    (h : M.map List.length = List.replicate N c) {i : ℕ} (hi : i < N) :
    (M.getD i []).length = c := by
  have hMl : M.length = N := by simpa using congrArg List.length h
  have hi2 : i < M.length := by omega
  have hgc : M[i].length = c := by
    have h1 : (M.map List.length)[i]? = some M[i].length := by
      rw [List.getElem?_map, List.getElem?_eq_getElem hi2]
      rfl
    rw [h, List.getElem?_replicate, if_pos hi] at h1
    exact (Option.some.injEq _ _ ▸ h1).symm
  rw [List.getD_eq_getElem?_getD, List.getElem?_eq_getElem hi2, Option.getD_some, hgc]

theorem vstackT_pair {α : Type} (X Y : MatG α) : vstackT [X, Y] = X ++ Y := by
  simp [vstackT]

theorem zero_M_ok (A B C D : MatQ) {n p : ℕ}
    (hA : A.length = n) (hB : B.length = n) (hC : C.length = p) (hD : D.length = p)
    (hrA : ∀ r ∈ A, r.length = n) (hrB : ∀ r ∈ B, r.length = p)
    (hrC : ∀ r ∈ C, r.length = n) (hrD : ∀ r ∈ D, r.length = p)
    (hn : 0 < n) (hp : 0 < p) :
    zero_M A B C D = .ok (List.zipWith (· ++ ·) A B ++ List.zipWith (· ++ ·) C D) := by
  rw [zero_M]
  rw [hstackE_ok A [B] (by simp [nrows, hA, hB]), ok_bind]
  rw [hstackE_ok C [D] (by simp [nrows, hC, hD]), ok_bind]
  have htop : hstackT [A, B] = List.zipWith (· ++ ·) A B := rfl
  have hbot : hstackT [C, D] = List.zipWith (· ++ ·) C D := rfl
  rw [htop, hbot]
  rw [vstackE_ok _ [List.zipWith (· ++ ·) C D] ?hcols, vstackT_pair]
  case hcols =>
    intro m hm
    rw [List.mem_singleton.mp hm]
    rw [ncols_zip_append C D (by omega) (by omega) hrC hrD,
      ncols_zip_append A B (by omega) (by omega) hrA hrB]

theorem zero_Ig_ok (A B C D : MatQ) {n p : ℕ}
    (hA : A.length = n) (hB : B.length = n) (hC : C.length = p) (hD : D.length = p)
    (hrB : ∀ r ∈ B, r.length = p) (hrC : ∀ r ∈ C, r.length = n)
    (hrD : ∀ r ∈ D, r.length = p) (hn : 0 < n) (hp : 0 < p) :
    zero_Ig A B C D = .ok (List.zipWith (· ++ ·) (eyeM n) (zerosM n p) ++
      List.zipWith (· ++ ·) (zerosM p n) (zerosM p p)) := by
  have hColsB : ncols B = p := ncols_eq B hB hn hrB
  have hColsC : ncols C = n := ncols_eq C hC hp hrC
  have hColsD : ncols D = p := ncols_eq D hD hp hrD
  rw [zero_Ig]
  rw [show nrows A = n from hA, show nrows B = n from hB, show nrows C = p from hC,
    show nrows D = p from hD, hColsB, hColsC, hColsD]
  rw [hstackE_ok (eyeM n) [zerosM n p]
    (by intro m hm; rw [List.mem_singleton.mp hm]; simp [nrows, zerosM, eyeM]), ok_bind]
  rw [hstackE_ok (zerosM p n) [zerosM p p]
    (by intro m hm; rw [List.mem_singleton.mp hm]; simp [nrows, zerosM]), ok_bind]
  have htop : hstackT [(eyeM n : MatQ), zerosM n p] =
      List.zipWith (· ++ ·) (eyeM n) (zerosM n p) := rfl
  have hbot : hstackT [(zerosM p n : MatQ), zerosM p p] =
      List.zipWith (· ++ ·) (zerosM p n) (zerosM p p) := rfl
  rw [htop, hbot]
  rw [vstackE_ok _ [List.zipWith (· ++ ·) (zerosM p n) (zerosM p p)] ?hcols, vstackT_pair]
  case hcols =>
    intro m hm
    rw [List.mem_singleton.mp hm]
    rw [ncols_zip_append _ _ (by simp [zerosM]; omega) (by simp [zerosM]; omega)
        (rows_zerosM p n) (rows_zerosM p p),
      ncols_zip_append _ _ (by simp [eyeM]; omega) (by simp [zerosM]; omega)
        (rows_eyeM n) (rows_zerosM n p)]

theorem rows_of_map_length {α : Type} {M : MatG α} {N c : ℕ}
    (h : M.map List.length = List.replicate N c) : ∀ r ∈ M, r.length = c := by
  intro r hr
  have hmem : r.length ∈ M.map List.length := List.mem_map_of_mem _ hr
  rw [h] at hmem
  exact List.eq_of_mem_replicate hmem

theorem getD_row_length {α : Type} {M : MatG α} {m c i : ℕ} (hM : M.length = m)
    (hi : i < m) (hr : ∀ r ∈ M, r.length = c) : (M.getD i []).length = c := by
  have hi2 : i < M.length := by omega
  rw [List.getD_eq_getElem?_getD, List.getElem?_eq_getElem hi2, Option.getD_some]
  exact hr _ (M.getElem_mem hi2)

theorem ent_pencilZip {α β γ : Type} [Zero α] [Zero β] [Zero γ] (g : α → β → γ)
    (P : MatG α) (M : MatG β) {i j : ℕ} (hiP : i < P.length) (hiM : i < M.length)
    (hjP : j < (P.getD i []).length) (hjM : j < (M.getD i []).length) :
    entG (List.zipWith (fun pr mr => List.zipWith g pr mr) P M) i j =
      g (entG P i j) (entG M i j) := by
  have hPi : P.getD i [] = P[i] := by
    rw [List.getD_eq_getElem?_getD, List.getElem?_eq_getElem hiP]
    rfl
  have hMi : M.getD i [] = M[i] := by
    rw [List.getD_eq_getElem?_getD, List.getElem?_eq_getElem hiM]
    rfl
  have hjP2 : j < P[i].length := by rw [← hPi]; exact hjP
  have hjM2 : j < M[i].length := by rw [← hMi]; exact hjM
  have hiz : i < (List.zipWith (fun pr mr => List.zipWith g pr mr) P M).length := by
    rw [List.length_zipWith]
    omega
  have hjz : j < (List.zipWith g P[i] M[i]).length := by
    rw [List.length_zipWith]
    omega
  have hrow : (List.zipWith (fun pr mr => List.zipWith g pr mr) P M).getD i [] =
      List.zipWith g P[i] M[i] := by
    rw [List.getD_eq_getElem?_getD, List.getElem?_eq_getElem hiz, Option.getD_some,
      List.getElem_zipWith]
  rw [entG, hrow, List.getD_eq_getElem?_getD, List.getElem?_eq_getElem hjz,
    Option.getD_some, List.getElem_zipWith]
  rw [entG, entG, hPi, hMi,
    List.getD_eq_getElem?_getD, List.getElem?_eq_getElem hjP2, Option.getD_some,
    List.getD_eq_getElem?_getD, List.getElem?_eq_getElem hjM2, Option.getD_some]

theorem map_length_pencil {α β γ : Type} (g : α → β → γ) (P : MatG α) (M : MatG β)
    {N c : ℕ} (hP : P.map List.length = List.replicate N c)
    (hM : M.map List.length = List.replicate N c) :
    (List.zipWith (fun pr mr => List.zipWith g pr mr) P M).map List.length =
      List.replicate N c := by
  have hPl : P.length = N := by simpa using congrArg List.length hP
  have hMl : M.length = N := by simpa using congrArg List.length hM
  apply List.ext_getElem
  · simp [List.length_zipWith, hPl, hMl]
  · intro i h1 h2
    rw [List.getElem_map, List.getElem_zipWith, List.getElem_replicate]
    have hiN : i < N := by simpa [List.length_zipWith, hPl, hMl] using h1
    have hPi : P.getD i [] = P[i] := by
      rw [List.getD_eq_getElem?_getD, List.getElem?_eq_getElem (by omega : i < P.length)]
      rfl
    have hMi : M.getD i [] = M[i] := by
      rw [List.getD_eq_getElem?_getD, List.getElem?_eq_getElem (by omega : i < M.length)]
      rfl
    rw [List.length_zipWith, ← hPi, ← hMi, row_length_of_map_length hP hiN,
      row_length_of_map_length hM hiN, Nat.min_self]

theorem map_length_glued {α : Type} (X Y Z W : MatG α) {n p a b : ℕ}
    (hX : X.length = n) (hY : Y.length = n) (hZ : Z.length = p) (hW : W.length = p)
    (hrX : ∀ r ∈ X, r.length = a) (hrY : ∀ r ∈ Y, r.length = b)
    (hrZ : ∀ r ∈ Z, r.length = a) (hrW : ∀ r ∈ W, r.length = b) :
    (List.zipWith (· ++ ·) X Y ++ List.zipWith (· ++ ·) Z W).map List.length =
      List.replicate (n + p) (a + b) := by
  rw [List.map_append, map_length_zip_append X Y hrX hrY, map_length_zip_append Z W hrZ hrW,
    hX, hY, hZ, hW, Nat.min_self, Nat.min_self, ← List.replicate_add]

theorem entG_glued_ul {α : Type} [Zero α] {X Y Z W : MatG α} {n a : ℕ}
    (hX : X.length = n) (hY : Y.length = n) (hrX : ∀ r ∈ X, r.length = a)
    {i j : ℕ} (hi : i < n) (hj : j < a) :
    entG (List.zipWith (· ++ ·) X Y ++ List.zipWith (· ++ ·) Z W) i j = entG X i j := by
  rw [entG, row_glued_lo hX hY hi, getD_append_lo (getD_row_length hX hi hrX) hj, entG]

theorem entG_glued_ur {α : Type} [Zero α] {X Y Z W : MatG α} {n a : ℕ}
    (hX : X.length = n) (hY : Y.length = n) (hrX : ∀ r ∈ X, r.length = a)
    {i k : ℕ} (hi : i < n) :
    entG (List.zipWith (· ++ ·) X Y ++ List.zipWith (· ++ ·) Z W) i (a + k) =
      entG Y i k := by
  rw [entG, row_glued_lo hX hY hi, getD_append_hi (getD_row_length hX hi hrX), entG]

theorem entG_glued_ll {α : Type} [Zero α] {X Y Z W : MatG α} {n p a : ℕ}
    (hX : X.length = n) (hY : Y.length = n) (hZ : Z.length = p) (hW : W.length = p)
    (hrZ : ∀ r ∈ Z, r.length = a) {k j : ℕ} (hk : k < p) (hj : j < a) :
    entG (List.zipWith (· ++ ·) X Y ++ List.zipWith (· ++ ·) Z W) (n + k) j =
      entG Z k j := by
  rw [entG, row_glued_hi hX hY hZ hW hk, getD_append_lo (getD_row_length hZ hk hrZ) hj, entG]

theorem entG_glued_lr {α : Type} [Zero α] {X Y Z W : MatG α} {n p a : ℕ}
    (hX : X.length = n) (hY : Y.length = n) (hZ : Z.length = p) (hW : W.length = p)
    (hrZ : ∀ r ∈ Z, r.length = a) {k l : ℕ} (hk : k < p) :
    entG (List.zipWith (· ++ ·) X Y ++ List.zipWith (· ++ ·) Z W) (n + k) (a + l) =
      entG W k l := by
  rw [entG, row_glued_hi hX hY hZ hW hk, getD_append_hi (getD_row_length hZ hk hrZ), entG]

end ZeroLemmas

/-- The value of the symbolic pencil `z * Ig - M` that `zero` builds, as an
explicit array of polynomials (rows `i`, columns `j` over the glued blocks). -/
noncomputable def zero_pencil_val (A B C D : MatQ) (n p : ℕ) : MatG (Polynomial ℚ) :=
  List.zipWith (fun prow mrow => List.zipWith
      (fun ig mij => Polynomial.X * Polynomial.C ig - Polynomial.C mij) prow mrow)
    (List.zipWith (· ++ ·) (eyeM n) (zerosM n p) ++
      List.zipWith (· ++ ·) (zerosM p n) (zerosM p p))
    (List.zipWith (· ++ ·) A B ++ List.zipWith (· ++ ·) C D)

theorem zero_pencil_ok (A B C D : MatQ) (n p : ℕ)
    (hA : A.length = n) (hB : B.length = n) (hC : C.length = p) (hD : D.length = p)
    (hrA : ∀ r ∈ A, r.length = n) (hrB : ∀ r ∈ B, r.length = p)
    (hrC : ∀ r ∈ C, r.length = n) (hrD : ∀ r ∈ D, r.length = p)
    (hn : 0 < n) (hp : 0 < p) :
    zero_pencil A B C D = .ok (zero_pencil_val A B C D n p) := by
  rw [zero_pencil, zero_M_ok A B C D hA hB hC hD hrA hrB hrC hrD hn hp, ok_bind,
    zero_Ig_ok A B C D hA hB hC hD hrB hrC hrD hn hp, ok_bind]
  have hmapP := map_length_glued (eyeM n : MatQ) (zerosM n p) (zerosM p n) (zerosM p p)
    (show (eyeM n : MatQ).length = n by simp [eyeM])
    (show (zerosM n p : MatQ).length = n by simp)
    (show (zerosM p n : MatQ).length = p by simp)
    (show (zerosM p p : MatQ).length = p by simp)
    (rows_eyeM n) (rows_zerosM n p) (rows_zerosM p n) (rows_zerosM p p)
  have hmapM := map_length_glued A B C D hA hB hC hD hrA hrB hrC hrD
  have hss : sameShape
      (List.zipWith (· ++ ·) (eyeM n : MatQ) (zerosM n p) ++
        List.zipWith (· ++ ·) (zerosM p n) (zerosM p p))
      (List.zipWith (· ++ ·) A B ++ List.zipWith (· ++ ·) C D) = true := by
    rw [sameShape, decide_eq_true_eq, hmapP, hmapM]
  simp only [hss, if_true]
  rfl

theorem zero_pencil_val_map_length (A B C D : MatQ) (n p : ℕ)
    (hA : A.length = n) (hB : B.length = n) (hC : C.length = p) (hD : D.length = p)
    (hrA : ∀ r ∈ A, r.length = n) (hrB : ∀ r ∈ B, r.length = p)
    (hrC : ∀ r ∈ C, r.length = n) (hrD : ∀ r ∈ D, r.length = p) :
    (zero_pencil_val A B C D n p).map List.length = List.replicate (n + p) (n + p) := by
  have hmapP := map_length_glued (eyeM n : MatQ) (zerosM n p) (zerosM p n) (zerosM p p)
    (show (eyeM n : MatQ).length = n by simp [eyeM])
    (show (zerosM n p : MatQ).length = n by simp)
    (show (zerosM p n : MatQ).length = p by simp)
    (show (zerosM p p : MatQ).length = p by simp)
    (rows_eyeM n) (rows_zerosM n p) (rows_zerosM p n) (rows_zerosM p p)
  rw [zero_pencil_val]
  exact map_length_pencil _ _ _ hmapP
    (map_length_glued A B C D hA hB hC hD hrA hrB hrC hrD)

theorem zero_det_ok (A B C D : MatQ) (n p : ℕ)
    (hA : A.length = n) (hB : B.length = n) (hC : C.length = p) (hD : D.length = p)
    (hrA : ∀ r ∈ A, r.length = n) (hrB : ∀ r ∈ B, r.length = p)
    (hrC : ∀ r ∈ C, r.length = n) (hrD : ∀ r ∈ D, r.length = p)
    (hn : 0 < n) (hp : 0 < p) :
    zero_det A B C D = .ok (Matrix.det (Matrix.of
      fun i j : Fin (zero_pencil_val A B C D n p).length =>
        entG (zero_pencil_val A B C D n p) i.val j.val)) := by
  have hmapF := zero_pencil_val_map_length A B C D n p hA hB hC hD hrA hrB hrC hrD
  have hlenF : (zero_pencil_val A B C D n p).length = n + p := by
    simpa using congrArg List.length hmapF
  have hcolsF : ncols (zero_pencil_val A B C D n p) = n + p :=
    ncols_eq _ hlenF (by omega) (rows_of_map_length hmapF)
  rw [zero_det, zero_pencil_ok A B C D n p hA hB hC hD hrA hrB hrC hrD hn hp, ok_bind,
    if_pos (by rw [hlenF, hcolsF])]
  rfl

/-- Specification-side pencil at the complex point `s`: `s * Ig - M` with
`M = fromBlocks A B C D` (the Rosenbrock system matrix) and
`Ig = fromBlocks 1 0 0 0` (identity of `A`'s dimension in the top-left,
zero blocks matching `B`, `C`, `D`). -/
noncomputable def specPencil (A B C D : MatQ) (n p : ℕ) (s : ℂ) :
    Matrix (Fin n ⊕ Fin p) (Fin n ⊕ Fin p) ℂ :=
  s • Matrix.fromBlocks (1 : Matrix (Fin n) (Fin n) ℂ) 0 0 0 -
    Matrix.fromBlocks
      (Matrix.of fun i j : Fin n => ((entG A i.val j.val : ℚ) : ℂ))
      (Matrix.of fun (i : Fin n) (j : Fin p) => ((entG B i.val j.val : ℚ) : ℂ))
      (Matrix.of fun (i : Fin p) (j : Fin n) => ((entG C i.val j.val : ℚ) : ℂ))
      (Matrix.of fun i j : Fin p => ((entG D i.val j.val : ℚ) : ℂ))

/-- C3: for every `(A, B, C, D)` with conformable (nonempty, square-pencil)
shapes, `zero` forms the Rosenbrock pencil `M = [[A,B],[C,D]]` and the block
matrix `Ig = [[I_n,0],[0,0]]`, builds the exact symbolic polynomial matrix
`f(z) = z * Ig - M`, takes its exact determinant, and returns exactly the
set of complex roots of that polynomial, unfiltered: the set equals
`{s | det (s * Ig - M) = 0}` with `Ig`, `M` the block matrices of the
specification (`specPencil`). -/
theorem C3_zero_root_set (A B C D : MatQ) (n p : ℕ)
    (hA : A.length = n) (hB : B.length = n) (hC : C.length = p) (hD : D.length = p)
    (hrA : ∀ r ∈ A, r.length = n) (hrB : ∀ r ∈ B, r.length = p)
    (hrC : ∀ r ∈ C, r.length = n) (hrD : ∀ r ∈ D, r.length = p)
    (hn : 0 < n) (hp : 0 < p) :
    zero A B C D = .ok {s : ℂ | (specPencil A B C D n p s).det = 0} := by
  have hmapF := zero_pencil_val_map_length A B C D n p hA hB hC hD hrA hrB hrC hrD
  have hlenF : (zero_pencil_val A B C D n p).length = n + p := by
    simpa using congrArg List.length hmapF
  have hmapP := map_length_glued (eyeM n : MatQ) (zerosM n p) (zerosM p n) (zerosM p p)
    (show (eyeM n : MatQ).length = n by simp [eyeM])
    (show (zerosM n p : MatQ).length = n by simp)
    (show (zerosM p n : MatQ).length = p by simp)
    (show (zerosM p p : MatQ).length = p by simp)
    (rows_eyeM n) (rows_zerosM n p) (rows_zerosM p n) (rows_zerosM p p)
  have hmapM := map_length_glued A B C D hA hB hC hD hrA hrB hrC hrD
  have hPlen : (List.zipWith (· ++ ·) (eyeM n : MatQ) (zerosM n p) ++
      List.zipWith (· ++ ·) (zerosM p n) (zerosM p p)).length = n + p := by
    simpa using congrArg List.length hmapP
  have hMlen : (List.zipWith (· ++ ·) A B ++ List.zipWith (· ++ ·) C D).length = n + p := by
    simpa using congrArg List.length hmapM
  have hFent : ∀ v w : ℕ, v < n + p → w < n + p →
      entG (zero_pencil_val A B C D n p) v w =
        Polynomial.X * Polynomial.C (entG (List.zipWith (· ++ ·) (eyeM n : MatQ) (zerosM n p) ++
            List.zipWith (· ++ ·) (zerosM p n) (zerosM p p)) v w) -
          Polynomial.C (entG (List.zipWith (· ++ ·) A B ++
            List.zipWith (· ++ ·) C D) v w) := by
    intro v w hv hw
    rw [zero_pencil_val]
    exact ent_pencilZip _ _ _ (by rw [hPlen]; exact hv) (by rw [hMlen]; exact hv)
      (by rw [row_length_of_map_length hmapP hv]; exact hw)
      (by rw [row_length_of_map_length hmapM hv]; exact hw)
  have hEyeLen : (eyeM n : MatQ).length = n := by simp [eyeM]
  have hZnpLen : (zerosM n p : MatQ).length = n := by simp
  have hZpnLen : (zerosM p n : MatQ).length = p := by simp
  have hZppLen : (zerosM p p : MatQ).length = p := by simp
  have key : ∀ s : ℂ,
      Polynomial.aeval s (Matrix.det (Matrix.of
        fun i j : Fin (zero_pencil_val A B C D n p).length =>
          entG (zero_pencil_val A B C D n p) i.val j.val)) =
        (specPencil A B C D n p s).det := by
    intro s
    have h1 := RingHom.map_det (Polynomial.aeval s : Polynomial ℚ →ₐ[ℚ] ℂ).toRingHom
      (Matrix.of fun i j : Fin (zero_pencil_val A B C D n p).length =>
        entG (zero_pencil_val A B C D n p) i.val j.val)
    have h2 : ((Matrix.of fun i j : Fin (zero_pencil_val A B C D n p).length =>
        entG (zero_pencil_val A B C D n p) i.val j.val).map
          ⇑(Polynomial.aeval s : Polynomial ℚ →ₐ[ℚ] ℂ).toRingHom).submatrix
            (finSumFinEquiv.trans (finCongr hlenF.symm))
            (finSumFinEquiv.trans (finCongr hlenF.symm)) =
        specPencil A B C D n p s := by
      ext u v
      rcases u with i | k <;> rcases v with j | l <;>
        simp only [Matrix.submatrix_apply, Matrix.map_apply, Matrix.of_apply,
          Equiv.trans_apply, finSumFinEquiv_apply_left, finSumFinEquiv_apply_right,
          finCongr_apply, Fin.coe_cast, Fin.coe_castAdd, Fin.coe_natAdd]
      · rw [hFent i.val j.val (Nat.lt_of_lt_of_le i.isLt (Nat.le_add_right n p))
          (Nat.lt_of_lt_of_le j.isLt (Nat.le_add_right n p)),
          entG_glued_ul hEyeLen hZnpLen (rows_eyeM n) i.isLt j.isLt,
          ent_eyeM n i.val j.val i.isLt j.isLt,
          entG_glued_ul hA hB hrA i.isLt j.isLt]
        simp [specPencil, Matrix.fromBlocks_apply₁₁, Matrix.sub_apply, Matrix.smul_apply,
          Matrix.one_apply, Matrix.of_apply, map_sub, map_mul, Polynomial.aeval_X,
          Polynomial.aeval_C, eq_ratCast, apply_ite, Fin.ext_iff, smul_eq_mul]
      · rw [hFent i.val (n + l.val) (Nat.lt_of_lt_of_le i.isLt (Nat.le_add_right n p))
          (by omega),
          entG_glued_ur hEyeLen hZnpLen (rows_eyeM n) i.isLt,
          ent_zerosM n p i.val l.val,
          entG_glued_ur hA hB hrA i.isLt]
        simp [specPencil, Matrix.fromBlocks_apply₁₂, Matrix.sub_apply, Matrix.smul_apply,
          Matrix.of_apply, map_sub, map_mul, Polynomial.aeval_X,
          Polynomial.aeval_C, eq_ratCast, smul_eq_mul]
      · rw [hFent (n + k.val) j.val (by omega)
          (Nat.lt_of_lt_of_le j.isLt (Nat.le_add_right n p)),
          entG_glued_ll hEyeLen hZnpLen hZpnLen hZppLen (rows_zerosM p n) k.isLt j.isLt,
          ent_zerosM p n k.val j.val,
          entG_glued_ll hA hB hC hD hrC k.isLt j.isLt]
        simp [specPencil, Matrix.fromBlocks_apply₂₁, Matrix.sub_apply, Matrix.smul_apply,
          Matrix.of_apply, map_sub, map_mul, Polynomial.aeval_X,
          Polynomial.aeval_C, eq_ratCast, smul_eq_mul]
      · rw [hFent (n + k.val) (n + l.val) (by omega) (by omega),
          entG_glued_lr hEyeLen hZnpLen hZpnLen hZppLen (rows_zerosM p n) k.isLt,
          ent_zerosM p p k.val l.val,
          entG_glued_lr hA hB hC hD hrC k.isLt]
        simp [specPencil, Matrix.fromBlocks_apply₂₂, Matrix.sub_apply, Matrix.smul_apply,
          Matrix.of_apply, map_sub, map_mul, Polynomial.aeval_X,
          Polynomial.aeval_C, eq_ratCast, smul_eq_mul]
    calc (Polynomial.aeval s) (Matrix.det (Matrix.of
            fun i j : Fin (zero_pencil_val A B C D n p).length =>
              entG (zero_pencil_val A B C D n p) i.val j.val))
        = ((Matrix.of fun i j : Fin (zero_pencil_val A B C D n p).length =>
              entG (zero_pencil_val A B C D n p) i.val j.val).map
                ⇑(Polynomial.aeval s : Polynomial ℚ →ₐ[ℚ] ℂ).toRingHom).det := h1
      _ = (((Matrix.of fun i j : Fin (zero_pencil_val A B C D n p).length =>
              entG (zero_pencil_val A B C D n p) i.val j.val).map
                ⇑(Polynomial.aeval s : Polynomial ℚ →ₐ[ℚ] ℂ).toRingHom).submatrix
                  (finSumFinEquiv.trans (finCongr hlenF.symm))
                  (finSumFinEquiv.trans (finCongr hlenF.symm))).det :=
          (Matrix.det_submatrix_equiv_self _ _).symm
      _ = (specPencil A B C D n p s).det := by rw [h2]
  rw [zero, zero_det_ok A B C D n p hA hB hC hD hrA hrB hrC hrD hn hp, ok_bind]
  have hset : {s : ℂ | Polynomial.aeval s (Matrix.det (Matrix.of
      fun i j : Fin (zero_pencil_val A B C D n p).length =>
        entG (zero_pencil_val A B C D n p) i.val j.val)) = 0} =
      {s : ℂ | (specPencil A B C D n p s).det = 0} :=
    Set.ext fun s => by rw [Set.mem_setOf_eq, Set.mem_setOf_eq, key s]
  rw [hset]
  rfl

/-- C3 witness: the theorem applied to the 1-by-1 system
`A = [[-1]], B = [[1]], C = [[1]], D = [[0]]`. -/
theorem C3_witness :
    ([[(-1:ℚ)]] : MatQ).length = 1 ∧ ([[(1:ℚ)]] : MatQ).length = 1 ∧
    ([[(1:ℚ)]] : MatQ).length = 1 ∧ ([[(0:ℚ)]] : MatQ).length = 1 ∧
    (∀ r ∈ ([[(-1:ℚ)]] : MatQ), r.length = 1) ∧
    (∀ r ∈ ([[(1:ℚ)]] : MatQ), r.length = 1) ∧
    (∀ r ∈ ([[(1:ℚ)]] : MatQ), r.length = 1) ∧
    (∀ r ∈ ([[(0:ℚ)]] : MatQ), r.length = 1) ∧
    (0:ℕ) < 1 ∧ (0:ℕ) < 1 ∧
    zero [[-1]] [[1]] [[1]] [[0]] =
      .ok {s : ℂ | (specPencil [[-1]] [[1]] [[1]] [[0]] 1 1 s).det = 0} :=
  ⟨rfl, rfl, rfl, rfl, by decide, by decide, by decide, by decide, by decide, by decide,
    C3_zero_root_set [[-1]] [[1]] [[1]] [[0]] 1 1 rfl rfl rfl rfl
      (by decide) (by decide) (by decide) (by decide) (by decide) (by decide)⟩

end Ch04
